import Mathlib

/-!
Verification of the result-processing and query-persistence pipeline of the
stock screener (components `QueryResult.tsx`, `Save.tsx`, `MyQuery.tsx`).

The embedding models JavaScript values flowing through the pipeline:
records are ordered field-to-scalar maps, strings are handled through
`List Char` so that every operation computes, and the JavaScript string
methods used by the source (`toLowerCase`, `includes`, `trim`, `replace`,
`localeCompare`) are given explicit executable models.
-/

namespace Screener

/-! ## String helpers (models of the JavaScript string methods) -/

/-- Model of `Char` lower-casing as performed by `String.prototype.toLowerCase`
on the ASCII range (the only range exercised by the dataset's field values). -/
def toLowerChar (c : Char) : Char :=
  if 65 ≤ c.toNat ∧ c.toNat ≤ 90 then Char.ofNat (c.toNat + 32) else c

/-- Lower-case every character, model of `String.prototype.toLowerCase`. -/
def toLowerL (s : List Char) : List Char :=
  s.map toLowerChar

/-- Does `s` start with `pat`?  Helper for the `includes` model. -/
def startsWithL : List Char → List Char → Bool
  | [], _ => true
  | _ :: _, [] => false
  | p :: ps, c :: cs => p = c && startsWithL ps cs

/-- Model of `String.prototype.includes`: does `s` contain `pat` as a
contiguous substring? -/
def includesL : List Char → List Char → Bool
  | [], pat => pat.isEmpty
  | c :: cs, pat => startsWithL pat (c :: cs) || includesL cs pat

/-- Characters stripped by `String.prototype.trim`. -/
def isSpaceChar (c : Char) : Bool :=
  c = ' ' || c = '\t' || c = '\n' || c = '\r'

/-- Model of `String.prototype.trim`: strip leading and trailing whitespace. -/
def trimL (s : List Char) : List Char :=
  ((s.dropWhile isSpaceChar).reverse.dropWhile isSpaceChar).reverse

/-- String-level wrapper for `trimL`. -/
def trimS (s : String) : String :=
  ⟨trimL s.toList⟩

/-- Decimal digit character for `d < 10`. -/
def digitChar (d : Nat) : Char :=
  Char.ofNat (48 + d)

/-- Fuel-driven digit expansion; `fuel` bounds the number of divisions by
ten and `n + 1` is always enough fuel for `n`. -/
def natToCharsAux : Nat → Nat → List Char
  | 0, _ => []
  | fuel + 1, n =>
      if n < 10 then [digitChar n]
      else natToCharsAux fuel (n / 10) ++ [digitChar (n % 10)]

/-- Decimal representation of a natural number, most significant digit
first; model of `Number.prototype.toString` on naturals. -/
def natToChars (n : Nat) : List Char :=
  natToCharsAux (n + 1) n

/-- Decimal representation of an integer; model of the string form a
JavaScript number takes in string contexts. -/
def intToChars : Int → List Char
  | Int.ofNat n => natToChars n
  | Int.negSucc m => '-' :: natToChars (m + 1)

/-- String form of an integer. -/
def intToString (n : Int) : String :=
  ⟨intToChars n⟩

/-! ## Data model -/

/-- Scalar value stored in a record field: the source's records hold
numbers, strings, or null/blank cells. -/
inductive Value where
  | num (n : Int)
  | str (s : String)
  | vnull
deriving DecidableEq

/-- One stock record: an ordered mapping from field name to scalar, the
shape of `StockData` in `QueryResult.tsx`. -/
abbrev Record := List (String × Value)

/-- Field access `item[key]`: the value at the first occurrence of `key`,
or `none` when the field is absent. -/
def getField (item : Record) (key : String) : Option Value :=
  List.lookup key item

/-- The filter set: a mapping from field name to constraint string
(`Filters` in `QueryResult.tsx`), modelled as its entry list. -/
abbrev FilterSet := List (String × String)

/-! ## Filter Evaluator (`applyFilters` in `QueryResult.tsx`) -/

/-- One filter test from the body of `applyFilters`:
`itemValue?.toString().toLowerCase().includes(filters[key].toLowerCase())`.
A missing field or a null value short-circuits to `undefined`, which the
`every` callback coerces to `false`. -/
def filterTest (v : Option Value) (constraint : String) : Bool :=
  match v with
  | none => false
  | some Value.vnull => false
  | some (Value.num n) =>
      includesL (toLowerL (intToChars n)) (toLowerL constraint.toList)
  | some (Value.str s) =>
      includesL (toLowerL s.toList) (toLowerL constraint.toList)

/-- The predicate of `applyFilters`: a record survives when every filter
entry is empty or its constraint matches (`if (!filters[key]) return true`,
then the `includes` test). -/
def passesFilters (filters : FilterSet) (item : Record) : Bool :=
  filters.all fun p => if p.2 = "" then true else filterTest (getField item p.1) p.2

/-- The Filter Evaluator, `applyFilters` of `QueryResult.tsx`:
`data.filter(item => Object.keys(filters).every(...))`. -/
def applyFilters (filters : FilterSet) (data : List Record) : List Record :=
  data.filter (passesFilters filters)

/-- String form of a record's value at a field, with a missing field or a
null cell read as the empty string - the reading the specification uses to
describe the Filter Evaluator. -/
def recordStringAt (item : Record) (key : String) : String :=
  match getField item key with
  | none => ""
  | some Value.vnull => ""
  | some (Value.num n) => intToString n
  | some (Value.str s) => s

/-- The specification's survival criterion for one record: every filter
entry with a non-empty value must match case-folded as a substring. -/
def specKeeps (filters : FilterSet) (item : Record) : Prop :=
  ∀ p ∈ filters, p.2 ≠ "" →
    includesL (toLowerL (recordStringAt item p.1).toList) (toLowerL p.2.toList) = true

instance (filters : FilterSet) (item : Record) : Decidable (specKeeps filters item) := by
  unfold specKeeps
  exact inferInstance

/-! ## Sort Engine (`sortData` in `QueryResult.tsx`) -/

/-- Sort direction, the `'asc' | 'desc'` union of the source. -/
inductive Direction where
  | asc
  | desc
deriving DecidableEq

/-- The active sort configuration (`sortConfig` state in `QueryResult.tsx`). -/
structure SortConfig where
  key : String
  direction : Direction
deriving DecidableEq

/-- Three-way character comparison by code point, the base case of the
`localeCompare` model. -/
def charCmp (a b : Char) : Int :=
  if a.toNat < b.toNat then -1 else if b.toNat < a.toNat then 1 else 0

/-- Model of `String.prototype.localeCompare` as lexicographic comparison
on code points: negative, zero, or positive. -/
def lexCmp : List Char → List Char → Int
  | [], [] => 0
  | [], _ :: _ => -1
  | _ :: _, [] => 1
  | a :: as, b :: bs => if a = b then lexCmp as bs else charCmp a b

/-- The string form the sort comparator uses:
`aValue?.toString() || ''`, so a missing field or a null value reads as
the empty string. -/
def sortStr : Option Value → String
  | none => ""
  | some Value.vnull => ""
  | some (Value.num n) => intToString n
  | some (Value.str s) => s

/-- The comparator of `sortData`: numeric difference when both values are
numbers, otherwise `localeCompare` on the string forms; the descending
branch swaps the operands exactly as the source does. -/
def compareRecords (cfg : SortConfig) (a b : Record) : Int :=
  match getField a cfg.key, getField b cfg.key with
  | some (Value.num x), some (Value.num y) =>
      match cfg.direction with
      | Direction.asc => x - y
      | Direction.desc => y - x
  | av, bv =>
      match cfg.direction with
      | Direction.asc => lexCmp (sortStr av).toList (sortStr bv).toList
      | Direction.desc => lexCmp (sortStr bv).toList (sortStr av).toList

/-- The specification's comparator: the same ascending comparison, with
the descending direction flipping the sign of every comparison. -/
def specCompare (cfg : SortConfig) (a b : Record) : Int :=
  let base : Int :=
    match getField a cfg.key, getField b cfg.key with
    | some (Value.num x), some (Value.num y) => x - y
    | av, bv => lexCmp (sortStr av).toList (sortStr bv).toList
  match cfg.direction with
  | Direction.asc => base
  | Direction.desc => -base

/-- Insertion of one element into a list, keeping elements that already
compare at-or-before it in front; building block of the sort model. -/
def insertBy {α : Type} (le : α → α → Bool) (a : α) : List α → List α
  | [] => [a]
  | b :: bs => if le a b then a :: b :: bs else b :: insertBy le a bs

/-- Stable comparison sort; executable model of
`Array.prototype.sort(comparator)` (the ECMAScript specification fixes the
result only up to the comparator, and requires stability). -/
def sortBy {α : Type} (le : α → α → Bool) : List α → List α
  | [] => []
  | a :: as => insertBy le a (sortBy le as)

/-- The Sort Engine, `sortData` of `QueryResult.tsx`: identity on a null
`sortConfig`, otherwise `[...data].sort(comparator)`. -/
def sortData (cfg : Option SortConfig) (data : List Record) : List Record :=
  match cfg with
  | none => data
  | some c => sortBy (fun a b => compareRecords c a b ≤ 0) data

/-! ## Paginator (`totalPages` / `currentData` in `QueryResult.tsx`) -/

/-- The fixed page size, `itemsPerPage = 20` in `QueryResult.tsx`. -/
def itemsPerPage : Nat := 20

/-- Page count `Math.ceil(filteredAndSortedData.length / itemsPerPage)`. -/
def totalPages (resultLength : Nat) : Nat :=
  (resultLength + itemsPerPage - 1) / itemsPerPage

/-- The rendered page,
`filteredAndSortedData.slice((currentPage-1)*itemsPerPage, currentPage*itemsPerPage)`,
for a 1-based page number. -/
def currentData (l : List Record) (page : Nat) : List Record :=
  (l.drop ((page - 1) * itemsPerPage)).take itemsPerPage

/-! ## Component state transitions of `QueryResult.tsx` -/

/-- The pipeline-relevant component state of `QueryResult.tsx`:
`filters`, `sortConfig` and `currentPage`. -/
structure ScreenState where
  filters : FilterSet
  sortConfig : Option SortConfig
  currentPage : Nat
deriving DecidableEq

/-- The `handleSort` transition: toggle to descending when the same key was
already sorted ascending, otherwise sort ascending; it updates only
`sortConfig`. -/
def handleSort (st : ScreenState) (key : String) : ScreenState :=
  let direction :=
    match st.sortConfig with
    | some c =>
        if c.key = key ∧ c.direction = Direction.asc
        then Direction.desc else Direction.asc
    | none => Direction.asc
  { st with sortConfig := some ⟨key, direction⟩ }

/-- The `useEffect` reacting to the URL search parameters: it calls
`setFilters(urlFilters)` and refetches data, updating only `filters`. -/
def setUrlFilters (st : ScreenState) (urlFilters : FilterSet) : ScreenState :=
  { st with filters := urlFilters }

/-- The `handlePageChange` transition: `setCurrentPage(page)`. -/
def handlePageChange (st : ScreenState) (page : Nat) : ScreenState :=
  { st with currentPage := page }

/-! ## CSV Exporter (`exportToCSV` in `QueryResult.tsx`) -/

/-- Model of `value.replace(/"/g, '""')`: double every double quote. -/
def escQuotes : List Char → List Char
  | [] => []
  | c :: cs => if c = '"' then '"' :: '"' :: escQuotes cs else c :: escQuotes cs

/-- One CSV cell as built inside `exportToCSV`: a string containing a comma
or a double quote is wrapped in double quotes with inner quotes doubled;
any other value contributes its join-time string form (numbers their
decimal form, null and missing cells the empty string). -/
def csvCell (v : Option Value) : String :=
  match v with
  | none => ""
  | some Value.vnull => ""
  | some (Value.num n) => intToString n
  | some (Value.str s) =>
      if includesL s.toList [','] || includesL s.toList ['"']
      then ⟨'"' :: (escQuotes s.toList ++ ['"'])⟩
      else s

/-- The string form a cell value takes in the emitted CSV text before any
quoting, i.e. how `Array.prototype.join` renders it. -/
def cellString (v : Option Value) : String :=
  match v with
  | none => ""
  | some Value.vnull => ""
  | some (Value.num n) => intToString n
  | some (Value.str s) => s

/-- The specification's quoting rule: wrap in double quotes, doubling inner
quotes, exactly when the cell's string form contains a comma or a double
quote. -/
def specQuoteCell (v : Option Value) : String :=
  if includesL (cellString v).toList [','] || includesL (cellString v).toList ['"']
  then ⟨'"' :: (escQuotes (cellString v).toList ++ ['"'])⟩
  else cellString v

/-- Undoubling of doubled quotes, the inverse of `escQuotes`. -/
def halveQuotes : List Char → List Char
  | [] => []
  | [c] => [c]
  | c :: d :: cs =>
      if c = '"' ∧ d = '"' then '"' :: halveQuotes cs
      else c :: halveQuotes (d :: cs)

/-- Modelled from the spec: standard CSV unescaping of one serialized cell
(strip the surrounding double quotes and undouble inner quotes); the parse
direction is not code of this repository, only the claim's round trip
refers to it. -/
def csvUnescapeCell (cell : String) : String :=
  if 2 ≤ cell.toList.length ∧ cell.toList.head? = some '"' ∧
      cell.toList.getLast? = some '"'
  then ⟨halveQuotes (cell.toList.drop 1).dropLast⟩
  else cell

/-- The CSV Exporter, `exportToCSV` of `QueryResult.tsx`: reject an empty
filtered/sorted result with the user-visible notice, otherwise emit the
header row followed by one quoted row per record, newline-joined. -/
def exportToCSV (filters : FilterSet) (cfg : Option SortConfig)
    (data : List Record) : Except String String :=
  match sortData cfg (applyFilters filters data) with
  | [] => Except.error "No data to export"
  | first :: rest =>
      let columns := first.map Prod.fst
      Except.ok (String.intercalate "\n"
        (String.intercalate "," columns ::
          (first :: rest).map fun row =>
            String.intercalate "," (columns.map fun col => csvCell (getField row col))))

/-! ## Saved Query Store (`Save.tsx`, `MyQuery.tsx`, `QueryResult.tsx`) -/

/-- The query snapshot built by `saveQuery` in `QueryResult.tsx` and handed
to the save page. -/
structure QueryData where
  filters : FilterSet
  sortConfig : Option SortConfig
  timestamp : String
  resultCount : Nat
  totalCount : Nat
deriving DecidableEq

/-- A persisted saved query (`SavedQuery` in `Save.tsx` / `MyQuery.tsx`). -/
structure SavedQuery where
  id : String
  name : String
  description : String
  tags : List String
  filters : FilterSet
  sortConfig : Option SortConfig
  timestamp : String
  resultCount : Nat
  totalCount : Nat
deriving DecidableEq

/-- The capture step, `saveQuery` of `QueryResult.tsx`: snapshot the active
filters and sort plus the counts, with the creation instant `ts` from
`new Date().toISOString()`. -/
def QueryResult.saveQuery (data : List Record) (filters : FilterSet)
    (cfg : Option SortConfig) (ts : String) : QueryData :=
  { filters := filters
    sortConfig := cfg
    timestamp := ts
    resultCount := (applyFilters filters data).length
    totalCount := data.length }

/-- The `newQuery` object built inside `saveQuery` of `Save.tsx`: the spread
of the captured snapshot plus the generated id (`Date.now().toString()`,
here the decimal form of the clock value `now`) and the trimmed name,
trimmed description and selected tags. -/
def Save.newQuery (qd : QueryData) (name description : String)
    (tags : List String) (now : Nat) : SavedQuery :=
  { id := ⟨natToChars now⟩
    name := trimS name
    description := trimS description
    tags := tags
    filters := qd.filters
    sortConfig := qd.sortConfig
    timestamp := qd.timestamp
    resultCount := qd.resultCount
    totalCount := qd.totalCount }

/-- The create mutation, `saveQuery` of `Save.tsx`: validate
(`if (!queryData || !name.trim()) ... return`), then read the persisted
collection fresh from storage, append the new entry, and write the whole
collection back; `none` means the validation failed and nothing was
written. -/
def Save.saveQuery (queryData : Option QueryData) (name description : String)
    (selectedTags : List String) (now : Nat) (persisted : List SavedQuery) :
    Option (List SavedQuery) :=
  match queryData with
  | none => none
  | some qd =>
      if trimS name = "" then none
      else some (persisted ++ [Save.newQuery qd name description selectedTags now])

/-- The delete mutation, `deleteQuery` of `Save.tsx`: filter the component's
in-memory `savedQueries` state (loaded when the page mounted, not re-read
at mutation time) and write the result back as the whole collection. -/
def Save.deleteQuery (id : String) (savedQueries : List SavedQuery) :
    List SavedQuery :=
  savedQueries.filter fun q => q.id ≠ id

/-- The delete mutation, `deleteQuery` of `MyQuery.tsx`: identical to the
one in `Save.tsx`, likewise operating on the state snapshot. -/
def MyQuery.deleteQuery (id : String) (savedQueries : List SavedQuery) :
    List SavedQuery :=
  savedQueries.filter fun q => q.id ≠ id

/-- Modelled from the spec: the whole-collection-replace protocol for the
delete mutation - read the full persisted blob, remove the matching entry
from that freshly read collection, and write the full result back. -/
def specDeleteProtocol (id : String) (persisted : List SavedQuery) :
    List SavedQuery :=
  persisted.filter fun q => q.id ≠ id


theorem toList_eq_nil_iff (s : String) : s.toList = [] ↔ s = "" := by
  constructor
  · intro h
    cases s with
    | mk data => cases data with
      | nil => rfl
      | cons a as => simp [String.toList] at h
  · intro h
    subst h
    rfl

theorem filterTest_eq_spec (item : Record) (key c : String) (hc : c ≠ "") :
    filterTest (getField item key) c =
      includesL (toLowerL (recordStringAt item key).toList) (toLowerL c.toList) := by
  have hne : c.toList ≠ [] := fun h => hc ((toList_eq_nil_iff c).mp h)
  unfold filterTest recordStringAt
  cases getField item key with
  | none =>
      cases hcl : c.toList with
      | nil => exact absurd hcl hne
      | cons a as => simp [toLowerL, includesL, List.isEmpty]
  | some v =>
      cases v with
      | num n => rfl
      | str s => rfl
      | vnull =>
          cases hcl : c.toList with
          | nil => exact absurd hcl hne
          | cons a as => simp [toLowerL, includesL, List.isEmpty]

theorem passesFilters_iff_specKeeps (filters : FilterSet) (item : Record) :
    passesFilters filters item = true ↔ specKeeps filters item := by
  unfold passesFilters specKeeps
  rw [List.all_eq_true]
  constructor
  · intro h p hp hne
    have hb := h p hp
    rw [if_neg hne, filterTest_eq_spec item p.1 p.2 hne] at hb
    exact hb
  · intro h p hp
    by_cases hv : p.2 = ""
    · rw [if_pos hv]
    · rw [if_neg hv, filterTest_eq_spec item p.1 p.2 hv]
      exact h p hp hv

/-- C1: the Filter Evaluator keeps a record exactly when every non-empty
filter entry matches case-folded as a substring of the record's value at
that field (missing field read as the empty string), preserving relative
order and leaving the input untouched. -/
theorem filter_evaluator_correct (filters : FilterSet) (data : List Record) :
    applyFilters filters data = data.filter (fun item => decide (specKeeps filters item)) ∧
    List.Sublist (applyFilters filters data) data := by
  constructor
  · unfold applyFilters
    apply List.filter_congr
    intro item _
    cases hb : passesFilters filters item
    · symm
      rw [decide_eq_false_iff_not]
      intro hspec
      rw [← passesFilters_iff_specKeeps] at hspec
      rw [hb] at hspec
      exact Bool.false_ne_true hspec
    · symm
      rw [decide_eq_true_eq]
      exact (passesFilters_iff_specKeeps filters item).mp hb
  · exact List.filter_sublist data

theorem charCmp_antisymm (a b : Char) : charCmp b a = -(charCmp a b) := by
  unfold charCmp
  split_ifs <;> omega

theorem lexCmp_antisymm : ∀ a b : List Char, lexCmp b a = -(lexCmp a b)
  | [], [] => by simp [lexCmp]
  | [], _ :: _ => by simp [lexCmp]
  | _ :: _, [] => by simp [lexCmp]
  | x :: xs, y :: ys => by
      by_cases h : x = y
      · subst h
        simp [lexCmp, lexCmp_antisymm xs ys]
      · have h2 : ¬(y = x) := fun e => h e.symm
        simp only [lexCmp, if_neg h, if_neg h2]
        exact charCmp_antisymm x y

theorem compareRecords_eq_spec (cfg : SortConfig) (a b : Record) :
    compareRecords cfg a b = specCompare cfg a b := by
  rcases cfg with ⟨key, dir⟩
  unfold compareRecords specCompare
  rcases getField a key with _ | (x | s | _) <;>
    rcases getField b key with _ | (y | t | _) <;>
      cases dir <;>
        dsimp only <;>
          first
          | rfl
          | omega
          | exact lexCmp_antisymm _ _

theorem compareRecords_antisymm (cfg : SortConfig) (a b : Record) :
    compareRecords cfg b a = -(compareRecords cfg a b) := by
  rcases cfg with ⟨key, dir⟩
  unfold compareRecords
  rcases getField a key with _ | (x | s | _) <;>
    rcases getField b key with _ | (y | t | _) <;>
      cases dir <;>
        dsimp only <;>
          first
          | omega
          | exact lexCmp_antisymm _ _

theorem compareRecords_total (cfg : SortConfig) (a b : Record) :
    compareRecords cfg a b ≤ 0 ∨ compareRecords cfg b a ≤ 0 := by
  rw [compareRecords_antisymm]
  omega

theorem insertBy_perm {α : Type} (le : α → α → Bool) (a : α) (l : List α) :
    (insertBy le a l).Perm (a :: l) := by
  induction l with
  | nil => exact List.Perm.refl _
  | cons b bs ih =>
      unfold insertBy
      by_cases h : le a b
      · rw [if_pos h]
      · rw [if_neg h]
        exact (ih.cons b).trans (List.Perm.swap a b bs)

theorem sortBy_perm {α : Type} (le : α → α → Bool) (l : List α) :
    (sortBy le l).Perm l := by
  induction l with
  | nil => exact List.Perm.refl _
  | cons a as ih =>
      unfold sortBy
      exact (insertBy_perm le a (sortBy le as)).trans (ih.cons a)

theorem insertBy_pairwise {α : Type} (le : α → α → Bool)
    (htot : ∀ x y : α, le x y = true ∨ le y x = true) (a : α) (l : List α)
    (htrans : ∀ x ∈ a :: l, ∀ y ∈ a :: l, ∀ z ∈ a :: l,
      le x y = true → le y z = true → le x z = true)
    (hl : l.Pairwise fun x y => le x y = true) :
    (insertBy le a l).Pairwise fun x y => le x y = true := by
  induction l with
  | nil => simp [insertBy]
  | cons b bs ih =>
      rw [List.pairwise_cons] at hl
      unfold insertBy
      by_cases h : le a b
      · rw [if_pos h, List.pairwise_cons]
        refine ⟨?_, List.pairwise_cons.mpr hl⟩
        intro z hz
        rcases List.mem_cons.mp hz with rfl | hz
        · exact h
        · exact htrans a (by simp) b (by simp) z (by simp [hz]) h (hl.1 z hz)
      · rw [if_neg h, List.pairwise_cons]
        have hba : le b a = true := by
          rcases htot a b with ht | ht
          · exact absurd ht h
          · exact ht
        constructor
        · intro z hz
          have hz' : z = a ∨ z ∈ bs := by
            have := (insertBy_perm le a bs).mem_iff.mp hz
            simpa using this
          rcases hz' with rfl | hz'
          · exact hba
          · exact hl.1 z hz'
        · have step : ∀ w, w ∈ a :: bs → w ∈ a :: b :: bs := by
            intro w hw
            rcases List.mem_cons.mp hw with rfl | hw
            · exact List.mem_cons_self _ _
            · exact List.mem_cons_of_mem a (List.mem_cons_of_mem b hw)
          refine ih ?_ hl.2
          intro x hx y hy z hz
          exact htrans x (step x hx) y (step y hy) z (step z hz)

theorem sortBy_pairwise {α : Type} (le : α → α → Bool)
    (htot : ∀ x y : α, le x y = true ∨ le y x = true) (l : List α)
    (htrans : ∀ x ∈ l, ∀ y ∈ l, ∀ z ∈ l,
      le x y = true → le y z = true → le x z = true) :
    (sortBy le l).Pairwise fun x y => le x y = true := by
  induction l with
  | nil => simp [sortBy]
  | cons a as ih =>
      unfold sortBy
      have hmem : ∀ w, w ∈ a :: sortBy le as → w ∈ a :: as := by
        intro w hw
        rcases List.mem_cons.mp hw with rfl | hw
        · exact List.mem_cons_self _ _
        · exact List.mem_cons_of_mem a ((sortBy_perm le as).mem_iff.mp hw)
      refine insertBy_pairwise le htot a (sortBy le as) ?_ ?_
      · intro x hx y hy z hz
        exact htrans x (hmem x hx) y (hmem y hy) z (hmem z hz)
      · refine ih ?_
        intro x hx y hy z hz
        exact htrans x (List.mem_cons_of_mem a hx) y (List.mem_cons_of_mem a hy)
          z (List.mem_cons_of_mem a hz)

/-- C6: the Sort Engine returns the input unchanged on a null SortConfig;
with a non-null SortConfig it returns a permutation of its input (a copy,
the input untouched), its comparator agrees with the specification's
comparator (numeric when both values are numbers, locale-aware string
comparison on the string forms otherwise with a missing value read as the
empty string, the descending direction flipping the sign of every
comparison), and whenever that comparator is transitive on the elements of
the input the output is ordered by it. -/
theorem sort_engine_correct (c : SortConfig) (l : List Record) :
    sortData none l = l ∧
    (sortData (some c) l).Perm l ∧
    (∀ a b : Record, compareRecords c a b = specCompare c a b) ∧
    ((∀ x ∈ l, ∀ y ∈ l, ∀ z ∈ l,
        compareRecords c x y ≤ 0 → compareRecords c y z ≤ 0 →
          compareRecords c x z ≤ 0) →
      (sortData (some c) l).Pairwise fun a b => compareRecords c a b ≤ 0) := by
  refine ⟨rfl, sortBy_perm _ l, fun a b => compareRecords_eq_spec c a b, ?_⟩
  intro htrans
  have htot : ∀ x y : Record,
      decide (compareRecords c x y ≤ 0) = true ∨
        decide (compareRecords c y x ≤ 0) = true := by
    intro x y
    rcases compareRecords_total c x y with h | h
    · exact Or.inl (decide_eq_true h)
    · exact Or.inr (decide_eq_true h)
  have htrans' : ∀ x ∈ l, ∀ y ∈ l, ∀ z ∈ l,
      decide (compareRecords c x y ≤ 0) = true →
        decide (compareRecords c y z ≤ 0) = true →
          decide (compareRecords c x z ≤ 0) = true := by
    intro x hx y hy z hz h1 h2
    exact decide_eq_true
      (htrans x hx y hy z hz (of_decide_eq_true h1) (of_decide_eq_true h2))
  have hp := sortBy_pairwise _ htot l htrans'
  unfold sortData
  exact hp.imp fun h => of_decide_eq_true h

theorem sort_engine_correct_witness :
    (sortData (some ⟨"CMP", Direction.asc⟩)
        [[("CMP", Value.num 5)], [("CMP", Value.num 3)]]).Pairwise
      (fun a b => compareRecords ⟨"CMP", Direction.asc⟩ a b ≤ 0) :=
  (sort_engine_correct ⟨"CMP", Direction.asc⟩
      [[("CMP", Value.num 5)], [("CMP", Value.num 3)]]).2.2.2 (by decide)

/-- C2: evaluation at a concrete reachable state showing that neither a
sort change nor a filter change resets `currentPage`: from page 2 both
transitions keep `currentPage = 2`, while the shrunk one-record result has
`totalPages = 1`, so `currentPage` exceeds `totalPages` and page 2 renders
the empty slice. -/
theorem current_page_not_reset :
    (handleSort ⟨[], none, 2⟩ "Name").currentPage = 2 ∧
    (setUrlFilters ⟨[], none, 2⟩ [("Name", "zz")]).currentPage = 2 ∧
    totalPages 1 = 1 ∧
    (handleSort ⟨[], none, 2⟩ "Name").currentPage > totalPages 1 ∧
    currentData [[("Name", Value.str "zz")]] 2 = [] := by
  decide

/-- C10: computing the current page never fails - whenever the start index
`(page - 1) * 20` reaches at or past the end of the sequence the page is
the empty list, even for page numbers beyond `totalPages`. -/
theorem current_data_total (l : List Record) (p : Nat)
    (h : l.length ≤ (p - 1) * itemsPerPage) :
    currentData l p = [] := by
  unfold currentData
  rw [List.drop_eq_nil_of_le h]
  rfl

theorem current_data_total_witness :
    currentData [[("Name", Value.str "x")]] 3 = [] :=
  current_data_total [[("Name", Value.str "x")]] 3 (by decide)

/-- C8: a CSV export attempt yields the user-visible rejection, and no CSV
text, exactly when the filtered-and-sorted result sequence is empty. -/
theorem export_rejects_empty (filters : FilterSet) (cfg : Option SortConfig)
    (data : List Record) :
    exportToCSV filters cfg data = Except.error "No data to export" ↔
      sortData cfg (applyFilters filters data) = [] := by
  unfold exportToCSV
  cases h : sortData cfg (applyFilters filters data) with
  | nil => simp
  | cons a rest => simp

theorem pages_concat_take (l : List Record) (k : Nat) :
    ((List.range k).map fun i => currentData l (i + 1)).flatten =
      l.take (k * itemsPerPage) := by
  induction k with
  | zero => simp
  | succ k ih =>
      rw [List.range_succ, List.map_append, List.flatten_append, ih]
      simp only [List.map_cons, List.map_nil, List.flatten_cons, List.flatten_nil,
        List.append_nil]
      unfold currentData
      rw [Nat.add_sub_cancel, ← List.take_add, Nat.succ_mul]

theorem length_le_totalPages_mul (n : Nat) : n ≤ totalPages n * itemsPerPage := by
  unfold totalPages itemsPerPage
  have h1 := Nat.div_add_mod (n + 20 - 1) 20
  have h2 := Nat.mod_lt (n + 20 - 1) (show 0 < 20 by omega)
  omega

theorem totalPages_pred_mul_lt (n : Nat) (h : 0 < n) :
    (totalPages n - 1) * itemsPerPage < n := by
  unfold totalPages itemsPerPage
  have h1 := Nat.div_add_mod (n + 20 - 1) 20
  have h2 := Nat.mod_lt (n + 20 - 1) (show 0 < 20 by omega)
  omega

/-- C5: `totalPages` is the ceiling of the result length over the fixed
page size 20 (zero exactly for an empty result), concatenating pages
`1..totalPages` reconstructs the sequence with no gaps or overlaps, and a
non-empty result's last page holds between 1 and 20 records. -/
theorem paginator_correct (l : List Record) :
    totalPages 0 = 0 ∧
    (totalPages l.length = 0 ↔ l.length = 0) ∧
    l.length ≤ totalPages l.length * itemsPerPage ∧
    (0 < l.length → (totalPages l.length - 1) * itemsPerPage < l.length) ∧
    ((List.range (totalPages l.length)).map fun i => currentData l (i + 1)).flatten = l ∧
    (0 < l.length →
      1 ≤ (currentData l (totalPages l.length)).length ∧
      (currentData l (totalPages l.length)).length ≤ itemsPerPage) := by
  refine ⟨rfl, ?_, length_le_totalPages_mul l.length,
    fun h => totalPages_pred_mul_lt l.length h, ?_, ?_⟩
  · unfold totalPages itemsPerPage
    have h1 := Nat.div_add_mod (l.length + 20 - 1) 20
    have h2 := Nat.mod_lt (l.length + 20 - 1) (show 0 < 20 by omega)
    omega
  · rw [pages_concat_take]
    exact List.take_of_length_le (length_le_totalPages_mul l.length)
  · intro h
    have h1 := totalPages_pred_mul_lt l.length h
    have hP : itemsPerPage = 20 := rfl
    unfold currentData
    rw [List.length_take, List.length_drop]
    omega

theorem paginator_correct_witness :
    0 < (List.length ([[("A", Value.num 1)]] : List Record)) ∧
    (1 ≤ (currentData [[("A", Value.num 1)]]
        (totalPages (List.length ([[("A", Value.num 1)]] : List Record)))).length ∧
      (currentData [[("A", Value.num 1)]]
        (totalPages (List.length ([[("A", Value.num 1)]] : List Record)))).length ≤
        itemsPerPage) :=
  ⟨by decide, (paginator_correct [[("A", Value.num 1)]]).2.2.2.2.2 (by decide)⟩

theorem natToCharsAux_mem (fuel : Nat) : ∀ n : Nat, ∀ c ∈ natToCharsAux fuel n,
    ∃ d, d < 10 ∧ c = digitChar d := by
  induction fuel with
  | zero => intro n c hc; exact absurd hc (List.not_mem_nil c)
  | succ f ih =>
      intro n c hc
      unfold natToCharsAux at hc
      by_cases h : n < 10
      · rw [if_pos h, List.mem_singleton] at hc
        exact ⟨n, h, hc⟩
      · rw [if_neg h] at hc
        rcases List.mem_append.mp hc with hc | hc
        · exact ih (n / 10) c hc
        · rw [List.mem_singleton] at hc
          exact ⟨n % 10, Nat.mod_lt n (by omega), hc⟩

theorem natToChars_mem (n : Nat) : ∀ c ∈ natToChars n,
    ∃ d, d < 10 ∧ c = digitChar d :=
  natToCharsAux_mem (n + 1) n

theorem digitChar_not_comma_quote (d : Nat) (h : d < 10) :
    digitChar d ≠ ',' ∧ digitChar d ≠ '"' := by
  interval_cases d <;> exact ⟨by decide, by decide⟩

theorem intToChars_no_special (n : Int) :
    ∀ c ∈ intToChars n, c ≠ ',' ∧ c ≠ '"' := by
  intro c hc
  cases n with
  | ofNat m =>
      obtain ⟨d, hd, rfl⟩ := natToChars_mem m c hc
      exact digitChar_not_comma_quote d hd
  | negSucc m =>
      rcases List.mem_cons.mp hc with rfl | hc
      · exact ⟨by decide, by decide⟩
      · obtain ⟨d, hd, rfl⟩ := natToChars_mem (m + 1) c hc
        exact digitChar_not_comma_quote d hd

theorem includesL_singleton_false {s : List Char} {x : Char}
    (h : ∀ c ∈ s, c ≠ x) : includesL s [x] = false := by
  induction s with
  | nil => rfl
  | cons c cs ih =>
      have hxc : ¬(x = c) := fun e => h c (List.mem_cons_self c cs) e.symm
      simp [includesL, startsWithL, hxc,
        ih fun c' h' => h c' (List.mem_cons_of_mem c h')]

theorem includesL_singleton_of_mem {s : List Char} {x : Char} (h : x ∈ s) :
    includesL s [x] = true := by
  induction s with
  | nil => exact absurd h (List.not_mem_nil x)
  | cons c cs ih =>
      rcases List.mem_cons.mp h with rfl | h
      · simp [includesL, startsWithL]
      · simp [includesL, ih h]

theorem csvUnescapeCell_id {s : String} (h : ∀ c ∈ s.toList, c ≠ '"') :
    csvUnescapeCell s = s := by
  unfold csvUnescapeCell
  rw [if_neg]
  rintro ⟨-, h2, -⟩
  cases hs : s.toList with
  | nil => rw [hs] at h2; exact Option.noConfusion h2
  | cons c cs =>
      rw [hs] at h2
      have hc : c = '"' := by simpa using h2
      exact h c (by rw [hs]; exact List.mem_cons_self c cs) hc

theorem mk_toList (s : String) : (⟨s.toList⟩ : String) = s := by
  cases s
  rfl

theorem halve_esc : ∀ s : List Char, halveQuotes (escQuotes s) = s
  | [] => rfl
  | c :: cs => by
      by_cases h : c = '"'
      · subst h
        simp only [escQuotes, if_true]
        have h2 : halveQuotes ('"' :: '"' :: escQuotes cs) =
            '"' :: halveQuotes (escQuotes cs) := by
          simp [halveQuotes]
        rw [h2, halve_esc cs]
      · simp only [escQuotes, if_neg h]
        cases cs with
        | nil => simp [escQuotes, halveQuotes]
        | cons d ds =>
            have hE : ∃ X rest, escQuotes (d :: ds) = X :: rest := by
              by_cases hd : d = '"'
              · exact ⟨'"', '"' :: escQuotes ds, by simp [escQuotes, hd]⟩
              · exact ⟨d, escQuotes ds, by simp [escQuotes, hd]⟩
            obtain ⟨X, rest, hE⟩ := hE
            rw [hE]
            have hno : ¬(c = '"' ∧ X = '"') := fun hand => h hand.1
            simp only [halveQuotes]
            rw [if_neg hno, ← hE, halve_esc (d :: ds)]

theorem csvUnescape_quoted (s : List Char) :
    csvUnescapeCell ⟨'"' :: (escQuotes s ++ ['"'])⟩ = ⟨s⟩ := by
  unfold csvUnescapeCell
  rw [if_pos]
  · show (⟨halveQuotes ((('"' :: (escQuotes s ++ ['"'])).drop 1).dropLast)⟩ : String) = ⟨s⟩
    have h1 : (('"' :: (escQuotes s ++ ['"'])) : List Char).drop 1 = escQuotes s ++ ['"'] := rfl
    rw [h1, List.dropLast_concat, halve_esc]
  · refine ⟨?_, rfl, ?_⟩
    · show 2 ≤ ('"' :: (escQuotes s ++ ['"'])).length
      simp [List.length_append]
    · show ('"' :: (escQuotes s ++ ['"'])).getLast? = some '"'
      rw [show ('"' :: (escQuotes s ++ ['"']) : List Char) = ('"' :: escQuotes s) ++ ['"'] from rfl]
      exact List.getLast?_concat _

/-- C7: a cell is wrapped in double quotes with inner quotes doubled
exactly when its string form contains a comma or a double quote; the cell
value a,b"c serializes to "a,b""c" with surrounding quotes; and standard
CSV unescaping of any serialized cell reproduces the cell's string form. -/
theorem csv_cell_quoting (v : Option Value) :
    csvCell v = specQuoteCell v ∧
    csvUnescapeCell (csvCell v) = cellString v ∧
    csvCell (some (Value.str "a,b\"c")) = "\"a,b\"\"c\"" := by
  refine ⟨?_, ?_, by decide⟩
  · cases v with
    | none => rfl
    | some w =>
        cases w with
        | vnull => rfl
        | str s => rfl
        | num n =>
            have hc : includesL (intToChars n) [','] = false :=
              includesL_singleton_false fun c hcm => (intToChars_no_special n c hcm).1
            have hq : includesL (intToChars n) ['"'] = false :=
              includesL_singleton_false fun c hcm => (intToChars_no_special n c hcm).2
            simp only [csvCell, specQuoteCell, cellString]
            rw [show (intToString n).toList = intToChars n from rfl, hc, hq]
            rfl
  · cases v with
    | none => rfl
    | some w =>
        cases w with
        | vnull => rfl
        | num n =>
            show csvUnescapeCell (intToString n) = intToString n
            exact csvUnescapeCell_id fun c hcm => (intToChars_no_special n c hcm).2
        | str s =>
            by_cases hg : (includesL s.toList [','] || includesL s.toList ['"']) = true
            · have hcell : csvCell (some (Value.str s)) =
                  ⟨'"' :: (escQuotes s.toList ++ ['"'])⟩ := by
                simp only [csvCell]
                rw [if_pos hg]
              rw [hcell, csvUnescape_quoted s.toList, mk_toList]
              rfl
            · have hcell : csvCell (some (Value.str s)) = s := by
                simp only [csvCell]
                rw [if_neg hg]
              have hg' : includesL s.toList ['"'] = false := by
                rcases Bool.or_eq_false_iff.mp (Bool.eq_false_iff.mpr hg) with ⟨-, h2⟩
                exact h2
              have hnq : ∀ c ∈ s.toList, c ≠ '"' := by
                intro c hcm e
                rw [includesL_singleton_of_mem (e ▸ hcm)] at hg'
                exact Bool.noConfusion hg'
              rw [hcell]
              exact csvUnescapeCell_id hnq

/-- C3: create with an empty trimmed name fails and writes nothing;
otherwise the freshly read collection gains exactly one appended entry
carrying the captured snapshot plus the generated id (the decimal clock
string) and the creation timestamp, and that id is fresh whenever the
clock value is new to the collection. -/
theorem create_validates_and_appends (data : List Record) (filters : FilterSet)
    (cfg : Option SortConfig) (ts name desc : String) (tags : List String)
    (now : Nat) (persisted : List SavedQuery)
    (hfresh : ∀ q ∈ persisted, q.id ≠ ⟨natToChars now⟩) :
    (trimS name = "" →
      Save.saveQuery (some (QueryResult.saveQuery data filters cfg ts))
        name desc tags now persisted = none) ∧
    (trimS name ≠ "" →
      Save.saveQuery (some (QueryResult.saveQuery data filters cfg ts))
          name desc tags now persisted =
        some (persisted ++
          [Save.newQuery (QueryResult.saveQuery data filters cfg ts) name desc tags now]) ∧
      (persisted ++
        [Save.newQuery (QueryResult.saveQuery data filters cfg ts) name desc tags now]).length =
        persisted.length + 1 ∧
      (Save.newQuery (QueryResult.saveQuery data filters cfg ts) name desc tags now).id =
        ⟨natToChars now⟩ ∧
      (Save.newQuery (QueryResult.saveQuery data filters cfg ts) name desc tags now).timestamp =
        ts ∧
      (Save.newQuery (QueryResult.saveQuery data filters cfg ts) name desc tags now).id ∉
        persisted.map SavedQuery.id) := by
  constructor
  · intro h
    simp only [Save.saveQuery]
    rw [if_pos h]
  · intro h
    refine ⟨?_, by simp, rfl, rfl, ?_⟩
    · simp only [Save.saveQuery]
      rw [if_neg h]
    · intro hmem
      rw [List.mem_map] at hmem
      obtain ⟨q, hq, hid⟩ := hmem
      exact hfresh q hq hid

theorem create_validates_and_appends_witness :
    trimS "Q1" ≠ "" ∧
    Save.saveQuery (some (QueryResult.saveQuery [] [] none "t0")) "Q1" "d" [] 7 [] =
      some ([] ++ [Save.newQuery (QueryResult.saveQuery [] [] none "t0") "Q1" "d" [] 7]) :=
  ⟨by decide,
    ((create_validates_and_appends [] [] none "t0" "Q1" "d" [] 7 []
        (by intro q hq; exact absurd hq (List.not_mem_nil q))).2 (by decide)).1⟩

/-- C4: counterexample to the fresh-read protocol for delete - with the
persisted blob holding the entries with ids 1 and 2 but the component
state holding only the id-1 entry (loaded before id 2 was written), the
delete flow writes the filter of its stale state snapshot, which differs
from whole-collection read-modify-write of the blob (the latter keeps the
id-2 entry). -/
theorem delete_not_fresh_read_counterexample :
    MyQuery.deleteQuery "1"
        [⟨"1", "a", "", [], [], none, "t1", 0, 0⟩] ≠
      specDeleteProtocol "1"
        [⟨"1", "a", "", [], [], none, "t1", 0, 0⟩,
          ⟨"2", "b", "", [], [], none, "t2", 0, 0⟩] := by
  decide

/-- C4 amended: the create mutation follows whole-collection
read-modify-write on the freshly read persisted blob and writes the full
collection back to the single key; each delete mutation filters the
collection its page loaded at mount time and writes that full result back,
so it coincides with the read-modify-write protocol applied to the
collection it had read, not necessarily to the current blob. -/
theorem store_mutations_whole_collection (qd : QueryData) (name desc : String)
    (tags : List String) (now : Nat) (persisted snapshot : List SavedQuery)
    (id : String) :
    (trimS name ≠ "" →
      Save.saveQuery (some qd) name desc tags now persisted =
        some (persisted ++ [Save.newQuery qd name desc tags now])) ∧
    Save.deleteQuery id snapshot = specDeleteProtocol id snapshot ∧
    MyQuery.deleteQuery id snapshot = specDeleteProtocol id snapshot := by
  refine ⟨?_, rfl, rfl⟩
  intro h
  simp only [Save.saveQuery]
  rw [if_neg h]

theorem store_mutations_whole_collection_witness :
    trimS "N" ≠ "" ∧
    Save.saveQuery (some ⟨[], none, "t", 0, 0⟩) "N" "" [] 3 [] =
      some ([] ++ [Save.newQuery ⟨[], none, "t", 0, 0⟩ "N" "" [] 3]) :=
  ⟨by decide,
    (store_mutations_whole_collection ⟨[], none, "t", 0, 0⟩ "N" "" [] 3 [] [] "x").1
      (by decide)⟩

/-- C9: the captured snapshot satisfies resultCount ≤ totalCount (the
filtered result is never longer than the dataset), and the store freezes
the counts - a successful create appends one entry carrying exactly the
captured counts while leaving every prior entry in place, and delete only
removes entries, never rewriting one. -/
theorem counts_frozen (data : List Record) (filters : FilterSet)
    (cfg : Option SortConfig) (ts name desc : String) (tags : List String)
    (now : Nat) (persisted : List SavedQuery) (id : String) :
    (QueryResult.saveQuery data filters cfg ts).resultCount ≤
      (QueryResult.saveQuery data filters cfg ts).totalCount ∧
    (∀ res, Save.saveQuery (some (QueryResult.saveQuery data filters cfg ts))
        name desc tags now persisted = some res →
      res = persisted ++
        [Save.newQuery (QueryResult.saveQuery data filters cfg ts) name desc tags now] ∧
      (Save.newQuery (QueryResult.saveQuery data filters cfg ts) name desc tags now).resultCount =
        (applyFilters filters data).length ∧
      (Save.newQuery (QueryResult.saveQuery data filters cfg ts) name desc tags now).totalCount =
        data.length) ∧
    (∀ q ∈ MyQuery.deleteQuery id persisted, q ∈ persisted) := by
  refine ⟨List.length_filter_le _ data, ?_, ?_⟩
  · intro res hres
    simp only [Save.saveQuery] at hres
    by_cases h : trimS name = ""
    · rw [if_pos h] at hres
      exact Option.noConfusion hres
    · rw [if_neg h] at hres
      exact ⟨(Option.some.inj hres).symm, rfl, rfl⟩
  · intro q hq
    exact List.mem_of_mem_filter hq

theorem counts_frozen_witness :
    (Save.newQuery (QueryResult.saveQuery [] [] none "t") "N" "" [] 3).resultCount =
      (applyFilters [] ([] : List Record)).length :=
  ((counts_frozen [] [] none "t" "N" "" [] 3 [] "x").2.1
    ([] ++ [Save.newQuery (QueryResult.saveQuery [] [] none "t") "N" "" [] 3])
    (by simp only [Save.saveQuery]; rw [if_neg (by decide : ¬(trimS "N" = ""))])).2.1

end Screener
